import Mathlib

/-!
Verification of the data reconciliation and eligibility-classification
pipeline of the SSA POAP repository.  Strings are modelled as `List Char`,
JavaScript numbers on the code paths verified here as `Nat`, `Int` and `ℚ`
(the similarity scores and block times involved are small exact values).
Each JavaScript function of the core is embedded as an executable Lean
definition translated from its source.
-/

/-- Whitespace characters recognised by the JavaScript trim / `\s`
operations, restricted to the ASCII range that the data paths use. -/
def isJsWs (c : Char) : Bool :=
  c = ' ' ∨ c = '\t' ∨ c = '\n' ∨ c = '\r' ∨ c = '\x0b' ∨ c = '\x0c'

/-- ASCII lower-casing of a single character, as `String.prototype.toLowerCase`
acts on the Latin letters that the matching pipeline compares. -/
def toLowerChar (c : Char) : Char :=
  if 'A' ≤ c ∧ c ≤ 'Z' then Char.ofNat (c.toNat + 32) else c

/-- JavaScript `String.prototype.trim`: drop whitespace from both ends. -/
def trimWs (s : List Char) : List Char :=
  ((s.dropWhile isJsWs).reverse.dropWhile isJsWs).reverse

/-- Lower-case Latin letter test, the keep-class `[a-z]`. -/
def isLowerAlpha (c : Char) : Bool :=
  decide ('a' ≤ c ∧ c ≤ 'z')

/-- State-carrying core of `replace(/\s+/g, ' ')`: the flag records whether
the previous character was part of a whitespace run already replaced. -/
def collapseWsAux : Bool → List Char → List Char
  | _, [] => []
  | prevWs, c :: cs =>
    if isJsWs c then
      if prevWs then collapseWsAux true cs
      else ' ' :: collapseWsAux true cs
    else c :: collapseWsAux false cs

/-- JavaScript `replace(/\s+/g, ' ')`: every maximal whitespace run becomes
a single space. -/
def collapseWs (s : List Char) : List Char :=
  collapseWsAux false s

/-- Embedding of `normalizeName` (scripts/consolidate-data.js): empty input
maps to empty, otherwise lower-case, trim, collapse whitespace runs, then
remove every character outside `[a-z\s]`. -/
def normalizeName (name : List Char) : List Char :=
  if name = [] then []
  else
    ((collapseWs (trimWs (name.map toLowerChar))).filter
      (fun c => isLowerAlpha c || isJsWs c))

/-- Characters emitted by `collapseWsAux` are either non-whitespace
characters of the input or the single space that replaced a run. -/
theorem collapseWsAux_ws_eq_space (b : Bool) (s : List Char) :
    ∀ c ∈ collapseWsAux b s, isJsWs c = true → c = ' ' := by
  induction s generalizing b with
  | nil => intro c hc; simp [collapseWsAux] at hc
  | cons a as ih =>
    intro c hc hw
    by_cases ha : isJsWs a = true
    · by_cases hb : b = true
      · subst hb
        simp only [collapseWsAux, ha, if_pos rfl] at hc
        exact ih true c hc hw
      · simp only [Bool.not_eq_true] at hb
        subst hb
        simp only [collapseWsAux, ha, if_pos rfl] at hc
        rcases List.mem_cons.mp hc with h | h
        · exact h
        · exact ih true c h hw
    · simp only [collapseWsAux, ha] at hc
      rcases List.mem_cons.mp hc with h | h
      · subst h
        simp only [Bool.not_eq_true] at ha
        rw [hw] at ha
        cases ha
      · exact ih false c h hw

/-- CLAIM C4 (amended): every character of a normalized name is a lowercase
Latin letter or the space character, and empty input normalizes to the empty
string.  (Because character removal happens after whitespace collapsing,
consecutive, leading or trailing spaces can survive where removed characters
adjoined spaces; see the counterexample.) -/
theorem normalizeName_chars :
    (∀ (s : List Char), ∀ c ∈ normalizeName s,
        ('a' ≤ c ∧ c ≤ 'z') ∨ c = ' ') ∧ normalizeName [] = [] := by
  constructor
  · intro s c hc
    by_cases hs : s = []
    · subst hs; simp [normalizeName] at hc
    · simp only [normalizeName, hs, if_neg hs] at hc
      have hmem := List.mem_filter.mp hc
      have hpred := hmem.2
      have hcoll := hmem.1
      rcases Bool.or_eq_true _ _ |>.mp hpred with h | h
      · exact Or.inl (of_decide_eq_true h)
      · exact Or.inr (collapseWsAux_ws_eq_space false _ c hcoll h)
  · rfl

/-- Witness for the amended C4 theorem at a concrete character. -/
theorem normalizeName_chars_witness :
    ('a' ≤ 'a' ∧ 'a' ≤ 'z') ∨ 'a' = ' ' :=
  normalizeName_chars.1 (String.toList "ab") 'a' (by decide)

/-- CLAIM C4 counterexample: the claim asserts the result never contains two
consecutive spaces; yet normalizing a name whose digit sits between two
spaces leaves a double space, because removal runs after collapsing. -/
theorem normalizeName_double_space_counterexample :
    List.IsInfix [' ', ' '] (normalizeName (String.toList "a 1 b")) := by
  decide

/-- Inner loop of the Levenshtein matrix of `similarity`
(scripts/consolidate-data.js): given the previous row starting at the
diagonal cell and the value to the left, produce the rest of the current
row.  `cost` is 0 on equal characters, 1 otherwise, and each cell is the
minimum of deletion, insertion and substitution. -/
def levBuildRow (a : Char) : List Char → Nat → List Nat → List Nat
  | b :: t, left, diag :: up :: rest =>
    let cost := if a = b then 0 else 1
    let cur := min (up + 1) (min (left + 1) (diag + cost))
    cur :: levBuildRow a t cur (up :: rest)
  | _, _, _ => []

/-- Outer loop of the Levenshtein matrix: fold the rows over the first
string, starting from row 0 which is `[0, 1, ..., length t]`. -/
def levLoop (t : List Char) : List Char → List Nat → List Nat
  | [], prev => prev
  | a :: s, prev =>
    let first := prev.headD 0 + 1
    levLoop t s (first :: levBuildRow a t first prev)

/-- Levenshtein edit distance as computed by the matrix in `similarity`. -/
def levDistance (s t : List Char) : Nat :=
  (levLoop t s (List.range (t.length + 1))).getLastD 0

/-- Embedding of `similarity` (scripts/consolidate-data.js): lower-case and
trim both strings, return 1 on equality, 0 when either is empty, else
`1 - distance / maxLen`.  The JavaScript floating-point arithmetic is
modelled by exact rationals. -/
def similarity (str1 str2 : List Char) : ℚ :=
  let s1 := trimWs (str1.map toLowerChar)
  let s2 := trimWs (str2.map toLowerChar)
  if s1 = s2 then 1
  else if s1.length = 0 ∨ s2.length = 0 then 0
  else 1 - (levDistance s1 s2 : ℚ) / ((max s1.length s2.length : Nat) : ℚ)

/-- Embedding of the field escaping inside `toCSV`
(scripts/consolidate-data.js): a value containing the delimiter or a quote
is wrapped in quotes with each inner quote doubled. -/
def escapeCSVField (val : List Char) : List Char :=
  if ',' ∈ val ∨ '"' ∈ val then
    '"' :: (val.flatMap (fun c => if c = '"' then ['"', '"'] else [c])) ++ ['"']
  else val

/-- Join a list of strings with a single separator character, as
`Array.prototype.join` does. -/
def joinWith (sep : Char) : List (List Char) → List Char
  | [] => []
  | [x] => x
  | x :: y :: xs => x ++ sep :: joinWith sep (y :: xs)

/-- Embedding of one data row of `toCSV`; a row object is modelled
positionally as its list of field values aligned with the columns. -/
def toCSVRow (vals : List (List Char)) : List Char :=
  joinWith ',' (vals.map escapeCSVField)

/-- Embedding of `toCSV` (scripts/consolidate-data.js): empty data yields
the empty string, otherwise the header line followed by one line per row,
joined with newlines. -/
def toCSV (data : List (List (List Char))) (columns : List (List Char)) : List Char :=
  if data = [] then []
  else joinWith '\n' (joinWith ',' columns :: data.map toCSVRow)

/-- Character walk of `parseCSVLine` (scripts/consolidate-data.js): a quote
toggles the in-quotes flag (and is dropped), a comma outside quotes closes
the current field, any other character is appended to the current field. -/
def parseWalk : List Char → Bool → List Char → List (List Char)
  | [], _, current => [current]
  | c :: cs, inQ, current =>
    if c = '"' then parseWalk cs (!inQ) current
    else if c = ',' ∧ inQ = false then current :: parseWalk cs inQ []
    else parseWalk cs inQ (current ++ [c])

/-- Embedding of `replace(/^"|"$/g, '')`: remove one leading and one
trailing quote character when present. -/
def stripEdgeQuotes (s : List Char) : List Char :=
  let s1 := if s.head? = some '"' then s.tail else s
  if s1.getLast? = some '"' then s1.dropLast else s1

/-- Embedding of `parseCSVLine`: run the walk from an empty field outside
quotes, then strip edge quotes and trim every resulting field. -/
def parseCSVLine (line : List Char) : List (List Char) :=
  (parseWalk line false []).map (fun s => trimWs (stripEdgeQuotes s))

/-- JavaScript `split('\n')` on a character list. -/
def splitNl : List Char → List (List Char)
  | [] => [[]]
  | c :: cs =>
    let r := splitNl cs
    if c = '\n' then [] :: r else (c :: r.headD []) :: r.tail

/-- Row assembly of `parseCSV`: each header key is zipped positionally
against the parsed values, trimming each value and padding missing trailing
fields with the empty string. -/
def buildRowVals : List (List Char) → List (List Char) → List (List Char)
  | [], _ => []
  | _ :: hs, [] => [] :: buildRowVals hs []
  | _ :: hs, v :: vs => trimWs v :: buildRowVals hs vs

/-- Embedding of `parseCSV` (scripts/consolidate-data.js): trim the content,
split into lines, require a header plus at least one data line, then parse
each data line against the header. -/
def parseCSV (content : List Char) : List (List (List Char)) :=
  let lines := splitNl (trimWs content)
  if lines.length < 2 then []
  else
    let header := parseCSVLine (lines.headD [])
    lines.tail.filterMap (fun line =>
      let values := parseCSVLine line
      if values.length = 0 then none else some (buildRowVals header values))

/-- Dropping a prefix satisfying a predicate is the identity when the head
does not satisfy it. -/
theorem dropWhile_eq_self_of_head (p : Char → Bool) (s : List Char)
    (h : ∀ c, s.head? = some c → p c = false) : s.dropWhile p = s := by
  cases s with
  | nil => rfl
  | cons a as =>
    have ha : p a = false := h a rfl
    simp [List.dropWhile, ha]

/-- A string whose first and last characters are not whitespace is fixed by
the JavaScript trim. -/
theorem trimWs_eq_self (s : List Char)
    (h1 : ∀ c, s.head? = some c → isJsWs c = false)
    (h2 : ∀ c, s.getLast? = some c → isJsWs c = false) : trimWs s = s := by
  unfold trimWs
  rw [dropWhile_eq_self_of_head _ _ h1]
  rw [dropWhile_eq_self_of_head _ _ (by intro c hc; exact h2 c (by rwa [List.head?_reverse] at hc))]
  exact List.reverse_reverse s

/-- Quote doubling inside the escape is the identity on quote-free values. -/
theorem flatMapQuote_eq_self (v : List Char) (h : '"' ∉ v) :
    v.flatMap (fun c => if c = '"' then ['"', '"'] else [c]) = v := by
  induction v with
  | nil => rfl
  | cons a as ih =>
    have ha : a ≠ '"' := fun hh => h (hh ▸ List.mem_cons_self a as)
    simp only [List.flatMap_cons, if_neg ha]
    rw [ih (fun hm => h (List.mem_cons_of_mem a hm))]
    rfl

/-- Characters of an escaped field are quotes or characters of the value. -/
theorem escapeCSVField_mem (v : List Char) (c : Char) (hc : c ∈ escapeCSVField v) :
    c = '"' ∨ c ∈ v := by
  unfold escapeCSVField at hc
  by_cases hm : ',' ∈ v ∨ '"' ∈ v
  · rw [if_pos hm] at hc
    rcases (by simpa using hc : c = '"' ∨ (∃ a ∈ v, c ∈ if a = '"' then ['"', '"'] else [a]) ∨ c = '"') with h | ⟨a, ha, hfa⟩ | h
    · exact Or.inl h
    · by_cases haq : a = '"'
      · rw [if_pos haq] at hfa
        simp at hfa
        exact Or.inl hfa
      · rw [if_neg haq] at hfa
        simp at hfa
        exact Or.inr (hfa ▸ ha)
    · exact Or.inl h
  · rw [if_neg hm] at hc
    exact Or.inr hc

/-- Characters of a joined list are the separator or characters of a part. -/
theorem joinWith_mem (sep : Char) (ls : List (List Char)) (c : Char)
    (hc : c ∈ joinWith sep ls) : c = sep ∨ ∃ l ∈ ls, c ∈ l := by
  induction ls with
  | nil => simp [joinWith] at hc
  | cons x xs ih =>
    cases xs with
    | nil =>
      simp only [joinWith] at hc
      exact Or.inr ⟨x, List.mem_cons_self x [], hc⟩
    | cons y ys =>
      simp only [joinWith] at hc
      rcases List.mem_append.mp hc with h | h
      · exact Or.inr ⟨x, List.mem_cons_self x _, h⟩
      · rcases List.mem_cons.mp h with h | h
        · exact Or.inl h
        · rcases ih h with h | ⟨l, hl, hcl⟩
          · exact Or.inl h
          · exact Or.inr ⟨l, List.mem_cons_of_mem x hl, hcl⟩

/-- Inside quotes every character except a quote is accumulated verbatim. -/
theorem parseWalk_inq_append (v : List Char) (cs acc : List Char) (h : '"' ∉ v) :
    parseWalk (v ++ cs) true acc = parseWalk cs true (acc ++ v) := by
  induction v generalizing acc with
  | nil => simp
  | cons a as ih =>
    have ha : a ≠ '"' := fun hh => h (hh ▸ List.mem_cons_self a as)
    have hmem : '"' ∉ as := fun hm => h (List.mem_cons_of_mem a hm)
    simp only [List.cons_append, parseWalk, if_neg ha]
    rw [if_neg (by simp)]
    have h2 := ih (acc ++ [a]) hmem
    simpa using h2

/-- Outside quotes a quote-free, comma-free segment is accumulated verbatim. -/
theorem parseWalk_noq_append (v : List Char) (cs acc : List Char)
    (hq : '"' ∉ v) (hc : ',' ∉ v) :
    parseWalk (v ++ cs) false acc = parseWalk cs false (acc ++ v) := by
  induction v generalizing acc with
  | nil => simp
  | cons a as ih =>
    have ha : a ≠ '"' := fun hh => hq (hh ▸ List.mem_cons_self a as)
    have hac : a ≠ ',' := fun hh => hc (hh ▸ List.mem_cons_self a as)
    simp only [List.cons_append, parseWalk, if_neg ha]
    rw [if_neg (by simp [hac])]
    have h2 := ih (acc ++ [a]) (fun hm => hq (List.mem_cons_of_mem a hm)) (fun hm => hc (List.mem_cons_of_mem a hm))
    simpa using h2

/-- Walking an escaped quote-free field followed by a comma closes exactly
that field, recovering the original value. -/
theorem parseWalk_field_comma (v rest acc : List Char) (h : '"' ∉ v) :
    parseWalk (escapeCSVField v ++ ',' :: rest) false acc =
      (acc ++ v) :: parseWalk rest false [] := by
  unfold escapeCSVField
  by_cases hm : ',' ∈ v ∨ '"' ∈ v
  · rw [if_pos hm, flatMapQuote_eq_self v h]
    simp only [List.cons_append, List.append_assoc]
    rw [parseWalk, if_pos rfl]
    simp only [Bool.not_false]
    rw [parseWalk_inq_append v _ acc h]
    simp only [List.nil_append]
    rw [parseWalk, if_pos rfl]
    simp only [Bool.not_true]
    rw [parseWalk, if_neg (by decide), if_pos (by simp)]
  · rw [if_neg hm]
    push_neg at hm
    rw [parseWalk_noq_append v _ acc h hm.1]
    rw [parseWalk, if_neg (by decide), if_pos (by simp)]

/-- Walking an escaped quote-free final field recovers the original value. -/
theorem parseWalk_field_end (v acc : List Char) (h : '"' ∉ v) :
    parseWalk (escapeCSVField v) false acc = [acc ++ v] := by
  unfold escapeCSVField
  by_cases hm : ',' ∈ v ∨ '"' ∈ v
  · rw [if_pos hm, flatMapQuote_eq_self v h]
    simp only [List.cons_append]
    rw [parseWalk, if_pos rfl]
    simp only [Bool.not_false]
    rw [parseWalk_inq_append v ['"'] acc h]
    rw [parseWalk, if_pos rfl]
    rfl
  · rw [if_neg hm]
    push_neg at hm
    rw [show v = v ++ [] by simp, parseWalk_noq_append v [] acc h hm.1]
    simp [parseWalk]

/-- Walking a serialized row of quote-free fields recovers the fields. -/
theorem parseWalk_toCSVRow (vals : List (List Char))
    (h : ∀ v ∈ vals, '"' ∉ v) (hne : vals ≠ []) :
    parseWalk (toCSVRow vals) false [] = vals := by
  induction vals with
  | nil => exact absurd rfl hne
  | cons v vs ih =>
    cases vs with
    | nil =>
      unfold toCSVRow
      simp only [List.map_cons, List.map_nil, joinWith]
      rw [parseWalk_field_end v [] (h v (List.mem_cons_self v []))]
      rfl
    | cons w ws =>
      unfold toCSVRow
      simp only [List.map_cons, joinWith]
      rw [parseWalk_field_comma v _ [] (h v (List.mem_cons_self v _))]
      rw [List.nil_append]
      have := ih (fun x hx => h x (List.mem_cons_of_mem v hx)) (by simp)
      unfold toCSVRow at this
      simp only [List.map_cons] at this
      rw [this]

/-- Stripping edge quotes is the identity on quote-free strings. -/
theorem stripEdgeQuotes_eq_self (s : List Char) (h : '"' ∉ s) :
    stripEdgeQuotes s = s := by
  unfold stripEdgeQuotes
  have h1 : s.head? ≠ some '"' := by
    intro hh
    exact h (List.mem_of_mem_head? hh)
  rw [if_neg h1]
  have h2 : s.getLast? ≠ some '"' := by
    intro hh
    exact h (List.mem_of_mem_getLast? hh)
  rw [if_neg h2]

/-- Parsing a serialized row of quote-free, trim-invariant fields recovers
the fields exactly. -/
theorem parseCSVLine_toCSVRow (vals : List (List Char))
    (h : ∀ v ∈ vals, '"' ∉ v ∧ trimWs v = v) (hne : vals ≠ []) :
    parseCSVLine (toCSVRow vals) = vals := by
  unfold parseCSVLine
  rw [parseWalk_toCSVRow vals (fun v hv => (h v hv).1) hne]
  have : ∀ v ∈ vals, trimWs (stripEdgeQuotes v) = v := by
    intro v hv
    rw [stripEdgeQuotes_eq_self v (h v hv).1]
    exact (h v hv).2
  calc vals.map (fun s => trimWs (stripEdgeQuotes s))
      = vals.map id := List.map_congr_left this
    _ = vals := List.map_id vals

/-- A newline-free string splits into itself. -/
theorem splitNl_no_nl (l : List Char) (h : '\n' ∉ l) : splitNl l = [l] := by
  induction l with
  | nil => rfl
  | cons c cs ih =>
    have hc : c ≠ '\n' := fun hh => h (hh ▸ List.mem_cons_self c cs)
    have := ih (fun hm => h (List.mem_cons_of_mem c hm))
    simp only [splitNl, this, if_neg hc]
    rfl

/-- Splitting after a newline-free prefix peels off that prefix. -/
theorem splitNl_append (l rest : List Char) (h : '\n' ∉ l) :
    splitNl (l ++ '\n' :: rest) = l :: splitNl rest := by
  induction l with
  | nil =>
    simp [splitNl]
  | cons c cs ih =>
    have hc : c ≠ '\n' := fun hh => h (hh ▸ List.mem_cons_self c cs)
    have h2 := ih (fun hm => h (List.mem_cons_of_mem c hm))
    simp only [List.cons_append, splitNl, List.append_eq, h2, if_neg hc]
    rfl

/-- Splitting on newlines inverts joining with newlines for newline-free
parts. -/
theorem splitNl_joinWith (ls : List (List Char))
    (h : ∀ l ∈ ls, '\n' ∉ l) (hne : ls ≠ []) :
    splitNl (joinWith '\n' ls) = ls := by
  induction ls with
  | nil => exact absurd rfl hne
  | cons x xs ih =>
    cases xs with
    | nil => exact splitNl_no_nl x (h x (List.mem_cons_self x []))
    | cons y ys =>
      simp only [joinWith]
      rw [splitNl_append x _ (h x (List.mem_cons_self x _))]
      rw [ih (fun l hl => h l (List.mem_cons_of_mem x hl)) (by simp)]

/-- The head of an append is the head of a nonempty left part. -/
theorem head?_append_left (a b : List Char) (h : a ≠ []) :
    (a ++ b).head? = a.head? := by
  cases a with
  | nil => exact absurd rfl h
  | cons x xs => rfl

/-- The last element of a cons is the last element of a nonempty tail. -/
theorem getLast?_cons_of_ne_nil (a : Char) (l : List Char) (h : l ≠ []) :
    (a :: l).getLast? = l.getLast? := by
  cases l with
  | nil => exact absurd rfl h
  | cons x xs => exact List.getLast?_cons_cons

/-- The last element of a list extended on the left by a cons-append. -/
theorem getLast?_append_cons (a : List Char) (b : Char) (c : List Char) :
    (a ++ b :: c).getLast? = (b :: c).getLast? := by
  induction a with
  | nil => rfl
  | cons x xs ih =>
    rw [List.cons_append]
    rw [getLast?_cons_of_ne_nil x _ (by simp)]
    exact ih

/-- The head of a nonempty-headed join is the head of its first part. -/
theorem joinWith_head? (sep : Char) (x : List Char) (xs : List (List Char))
    (h : x ≠ []) : (joinWith sep (x :: xs)).head? = x.head? := by
  cases xs with
  | nil => rfl
  | cons y ys => exact head?_append_left x _ h

/-- A join whose parts all end in non-whitespace characters, with a
non-whitespace separator, ends in a non-whitespace character. -/
theorem joinWith_getLast_not_ws (sep : Char) (hsep : isJsWs sep = false)
    (ls : List (List Char))
    (h : ∀ l ∈ ls, ∀ c, l.getLast? = some c → isJsWs c = false) :
    ∀ c, (joinWith sep ls).getLast? = some c → isJsWs c = false := by
  induction ls with
  | nil => intro c hc; simp [joinWith] at hc
  | cons x xs ih =>
    intro c hc
    cases xs with
    | nil =>
      exact h x (List.mem_cons_self x []) c hc
    | cons y ys =>
      simp only [joinWith] at hc
      rw [getLast?_append_cons] at hc
      by_cases hj : joinWith sep (y :: ys) = []
      · rw [hj] at hc
        simp at hc
        rw [← hc]
        exact hsep
      · rw [getLast?_cons_of_ne_nil sep _ hj] at hc
        exact ih (fun l hl => h l (List.mem_cons_of_mem x hl)) c hc

/-- An escaped field whose value ends in a non-whitespace character (or is
empty) also ends in a non-whitespace character. -/
theorem escapeCSVField_getLast_not_ws (v : List Char)
    (h : ∀ c, v.getLast? = some c → isJsWs c = false) :
    ∀ c, (escapeCSVField v).getLast? = some c → isJsWs c = false := by
  intro c hc
  unfold escapeCSVField at hc
  by_cases hm : ',' ∈ v ∨ '"' ∈ v
  · rw [if_pos hm] at hc
    rw [show ('"' :: (v.flatMap fun c => if c = '"' then ['"', '"'] else [c])) ++ ['"']
          = ('"' :: v.flatMap fun c => if c = '"' then ['"', '"'] else [c]) ++ '"' :: [] from rfl] at hc
    rw [getLast?_append_cons] at hc
    simp at hc
    rw [← hc]
    decide
  · rw [if_neg hm] at hc
    exact h c hc

/-- A serialized row of fields ending in non-whitespace characters ends in
a non-whitespace character. -/
theorem toCSVRow_getLast_not_ws (r : List (List Char))
    (h : ∀ v ∈ r, ∀ c, v.getLast? = some c → isJsWs c = false) :
    ∀ c, (toCSVRow r).getLast? = some c → isJsWs c = false := by
  unfold toCSVRow
  apply joinWith_getLast_not_ws ',' (by decide)
  intro l hl
  rcases List.mem_map.mp hl with ⟨v, hv, rfl⟩
  exact escapeCSVField_getLast_not_ws v (h v hv)

/-- A join is nonempty when its last part is nonempty. -/
theorem joinWith_ne_nil (sep : Char) (ls : List (List Char)) (hne : ls ≠ [])
    (h : ls.getLast hne ≠ []) : joinWith sep ls ≠ [] := by
  induction ls with
  | nil => exact absurd rfl hne
  | cons x xs ih =>
    cases xs with
    | nil =>
      simpa [joinWith, List.getLast] using h
    | cons y ys =>
      simp only [joinWith]
      simp

/-- The last character of a join is the last character of its last part,
when that part is nonempty. -/
theorem joinWith_getLast?_eq (sep : Char) (ls : List (List Char)) (hne : ls ≠ [])
    (h : ls.getLast hne ≠ []) :
    (joinWith sep ls).getLast? = (ls.getLast hne).getLast? := by
  induction ls with
  | nil => exact absurd rfl hne
  | cons x xs ih =>
    cases xs with
    | nil => simp [joinWith, List.getLast]
    | cons y ys =>
      have hx : (x :: y :: ys).getLast (by simp) = (y :: ys).getLast (by simp) :=
        List.getLast_cons (by simp)
      rw [hx] at h ⊢
      simp only [joinWith]
      rw [getLast?_append_cons]
      rw [getLast?_cons_of_ne_nil sep _ (joinWith_ne_nil sep (y :: ys) (by simp) h)]
      exact ih (by simp) h

/-- A serialized row is nonempty unless it is a lone empty field. -/
theorem toCSVRow_ne_nil (r : List (List Char)) (h1 : r ≠ []) (h2 : r ≠ [[]]) :
    toCSVRow r ≠ [] := by
  cases r with
  | nil => exact absurd rfl h1
  | cons v vs =>
    cases vs with
    | nil =>
      have hv : v ≠ [] := fun hh => h2 (by rw [hh])
      unfold toCSVRow
      simp only [List.map_cons, List.map_nil, joinWith]
      unfold escapeCSVField
      by_cases hm : ',' ∈ v ∨ '"' ∈ v
      · rw [if_pos hm]; simp
      · rw [if_neg hm]; exact hv
    | cons w ws =>
      unfold toCSVRow
      simp only [List.map_cons, joinWith]
      simp

/-- Row assembly is the identity when the value count matches the header
and every value is trim-invariant. -/
theorem buildRowVals_eq (hs vs : List (List Char)) (hlen : vs.length = hs.length)
    (htr : ∀ v ∈ vs, trimWs v = v) : buildRowVals hs vs = vs := by
  induction hs generalizing vs with
  | nil =>
    cases vs with
    | nil => rfl
    | cons v vs2 => simp at hlen
  | cons h hs2 ih =>
    cases vs with
    | nil => simp at hlen
    | cons v vs2 =>
      simp only [buildRowVals]
      rw [htr v (List.mem_cons_self v vs2)]
      rw [ih vs2 (by simpa using hlen) (fun w hw => htr w (List.mem_cons_of_mem v hw))]

/-- Well-formedness of a CSV field value for exact round-tripping: no quote
character, no newline, and no leading or trailing whitespace. -/
def csvValueOk (v : List Char) : Prop :=
  '"' ∉ v ∧ '\n' ∉ v ∧ v.head?.all (fun c => !isJsWs c) = true ∧
    v.getLast?.all (fun c => !isJsWs c) = true

instance (v : List Char) : Decidable (csvValueOk v) := by
  unfold csvValueOk
  infer_instance

/-- The first character of a well-formed value is not whitespace. -/
theorem csvValueOk_head (v : List Char) (h : csvValueOk v) :
    ∀ c, v.head? = some c → isJsWs c = false := by
  intro c hc
  have h2 := h.2.2.1
  rw [hc] at h2
  simpa using h2

/-- The last character of a well-formed value is not whitespace. -/
theorem csvValueOk_last (v : List Char) (h : csvValueOk v) :
    ∀ c, v.getLast? = some c → isJsWs c = false := by
  intro c hc
  have h2 := h.2.2.2
  rw [hc] at h2
  simpa using h2

/-- A well-formed value is fixed by trimming. -/
theorem csvValueOk_trim (v : List Char) (h : csvValueOk v) : trimWs v = v :=
  trimWs_eq_self v (csvValueOk_head v h) (csvValueOk_last v h)

/-- Parsing every serialized data row against the header recovers the data
exactly. -/
theorem parse_data_rows (header : List (List Char)) (data : List (List (List Char)))
    (hlen : ∀ r ∈ data, r.length = header.length)
    (hvals : ∀ r ∈ data, r ≠ [] ∧ ∀ v ∈ r, '"' ∉ v ∧ trimWs v = v) :
    (data.map toCSVRow).filterMap (fun line =>
      let values := parseCSVLine line
      if values.length = 0 then none else some (buildRowVals header values)) = data := by
  induction data with
  | nil => rfl
  | cons r rest ih =>
    simp only [List.map_cons, List.filterMap_cons]
    have hr := hvals r (List.mem_cons_self r rest)
    have hline : parseCSVLine (toCSVRow r) = r :=
      parseCSVLine_toCSVRow r hr.2 hr.1
    simp only [hline]
    rw [if_neg (List.length_pos.mpr hr.1).ne']
    rw [buildRowVals_eq header r (hlen r (List.mem_cons_self r rest)) (fun v hv => (hr.2 v hv).2)]
    rw [ih (fun q hq => hlen q (List.mem_cons_of_mem r hq))
      (fun q hq => hvals q (List.mem_cons_of_mem r hq))]

/-- CLAIM C3 (amended): serializing with toCSV and parsing back with
parseCSV recovers every field value exactly — including values containing
the comma delimiter, which are quoted on output and unquoted on input —
for every nonempty record list whose values contain no quote character or
newline and carry no leading or trailing whitespace (the parser trims each
field and drops quote characters, so such values cannot round-trip; see the
counterexample for the doubled-quote case), with well-formed column names
and no record being a single empty field. -/
theorem csv_round_trip (data : List (List (List Char))) (columns : List (List Char))
    (hd : data ≠ []) (hcne : columns ≠ [])
    (hcols : ∀ col ∈ columns, col ≠ [] ∧ ',' ∉ col ∧ csvValueOk col)
    (hdata : ∀ r ∈ data, r.length = columns.length ∧ r ≠ [[]] ∧ ∀ v ∈ r, csvValueOk v) :
    parseCSV (toCSV data columns) = data := by
  obtain ⟨c0, cs, rfl⟩ : ∃ c0 cs, columns = c0 :: cs := by
    cases columns with
    | nil => exact absurd rfl hcne
    | cons a b => exact ⟨a, b, rfl⟩
  obtain ⟨r0, rs, rfl⟩ : ∃ r0 rs, data = r0 :: rs := by
    cases data with
    | nil => exact absurd rfl hd
    | cons a b => exact ⟨a, b, rfl⟩
  have hc0 := hcols c0 (List.mem_cons_self c0 cs)
  -- the header line and its properties
  have hl_ne : joinWith ',' (c0 :: cs) ≠ [] := by
    cases cs with
    | nil => exact hc0.1
    | cons y ys =>
      simp only [joinWith]
      simp
  have hmap : (c0 :: cs).map escapeCSVField = c0 :: cs := by
    have h1 : ∀ col ∈ c0 :: cs, escapeCSVField col = id col := by
      intro col hcol
      show escapeCSVField col = col
      unfold escapeCSVField
      rw [if_neg]
      intro hor
      rcases hor with h | h
      · exact (hcols col hcol).2.1 h
      · exact (hcols col hcol).2.2.1 h
    rw [List.map_congr_left h1, List.map_id]
  have hl_row : joinWith ',' (c0 :: cs) = toCSVRow (c0 :: cs) := by
    unfold toCSVRow
    rw [hmap]
  -- every line is newline-free
  have hlines_nl : ∀ l ∈ joinWith ',' (c0 :: cs) :: (r0 :: rs).map toCSVRow, '\n' ∉ l := by
    intro l hl hnl
    rcases List.mem_cons.mp hl with rfl | hl2
    · rcases joinWith_mem ',' _ _ hnl with h | ⟨col, hcol, hc⟩
      · exact absurd h (by decide)
      · exact (hcols col hcol).2.2.2.1 hc
    · rcases List.mem_map.mp hl2 with ⟨r, hr, rfl⟩
      rcases joinWith_mem ',' _ _ hnl with h | ⟨e, he, hc⟩
      · exact absurd h (by decide)
      · rcases List.mem_map.mp he with ⟨v, hv, rfl⟩
        rcases escapeCSVField_mem v _ hc with h | h
        · exact absurd h (by decide)
        · exact ((hdata r hr).2.2 v hv).2.1 h
  -- the serialized content is trim-invariant
  have hcontent_trim :
      trimWs (joinWith '\n' (joinWith ',' (c0 :: cs) :: (r0 :: rs).map toCSVRow)) =
        joinWith '\n' (joinWith ',' (c0 :: cs) :: (r0 :: rs).map toCSVRow) := by
    apply trimWs_eq_self
    · intro c hc
      rw [joinWith_head? '\n' _ _ hl_ne] at hc
      rw [joinWith_head? ',' c0 cs hc0.1] at hc
      exact csvValueOk_head c0 hc0.2.2 c hc
    · intro c hc
      have hmapne : (r0 :: rs).map toCSVRow ≠ [] := by simp
      have hlast_mem : ((r0 :: rs).map toCSVRow).getLast hmapne ∈ (r0 :: rs).map toCSVRow :=
        List.getLast_mem hmapne
      rcases List.mem_map.mp hlast_mem with ⟨rL, hrL, hrow_eq⟩
      have hrL_props := hdata rL hrL
      have hrL_ne : rL ≠ [] := by
        intro hh
        rw [hh] at hrL_props
        simp at hrL_props
      have hrow_ne : ((r0 :: rs).map toCSVRow).getLast hmapne ≠ [] := by
        rw [← hrow_eq]
        exact toCSVRow_ne_nil rL hrL_ne hrL_props.2.1
      have hlast_cons :
          (joinWith ',' (c0 :: cs) :: (r0 :: rs).map toCSVRow).getLast (by simp) =
            ((r0 :: rs).map toCSVRow).getLast hmapne := List.getLast_cons hmapne
      rw [joinWith_getLast?_eq '\n' _ (by simp) (by rw [hlast_cons]; exact hrow_ne)] at hc
      rw [hlast_cons, ← hrow_eq] at hc
      exact toCSVRow_getLast_not_ws rL (fun v hv => csvValueOk_last v (hrL_props.2.2 v hv)) c hc
  -- assemble
  unfold toCSV
  rw [if_neg (by simp)]
  unfold parseCSV
  rw [hcontent_trim]
  rw [splitNl_joinWith _ hlines_nl (by simp)]
  rw [if_neg (by simp)]
  simp only [List.headD_cons, List.tail_cons]
  have hheader : parseCSVLine (joinWith ',' (c0 :: cs)) = c0 :: cs := by
    rw [hl_row]
    apply parseCSVLine_toCSVRow
    · intro col hcol
      exact ⟨(hcols col hcol).2.2.1, csvValueOk_trim col (hcols col hcol).2.2⟩
    · simp
  rw [hheader]
  apply parse_data_rows
  · intro r hr
    exact (hdata r hr).1
  · intro r hr
    refine ⟨?_, fun v hv => ⟨((hdata r hr).2.2 v hv).1, csvValueOk_trim v ((hdata r hr).2.2 v hv)⟩⟩
    intro hh
    have hlen2 := (hdata r hr).1
    rw [hh] at hlen2
    simp at hlen2

/-- CLAIM C3 counterexample: a value containing a quote character does not
round-trip — the serialized doubled quote is dropped by the parser instead
of being restored to a literal quote, so the claim as stated is false. -/
theorem csv_round_trip_counterexample :
    parseCSV (toCSV [[String.toList "a\"b"]] [String.toList "col"]) ≠
      [[String.toList "a\"b"]] := by
  decide

/-- Witness for the amended C3 theorem: a value containing the delimiter
round-trips exactly. -/
theorem csv_round_trip_witness :
    parseCSV (toCSV [[String.toList "x,y", String.toList "z"]]
        [String.toList "a", String.toList "b"]) =
      [[String.toList "x,y", String.toList "z"]] :=
  csv_round_trip [[String.toList "x,y", String.toList "z"]]
    [String.toList "a", String.toList "b"]
    (by decide) (by decide) (by decide) (by decide)

/-- Base-58 alphabet test from the regex `[1-9A-HJ-NP-Za-km-z]` used by the
validators (digit 0 and letters O, I, l excluded). -/
def isBase58Char (c : Char) : Bool :=
  ('1' ≤ c && c ≤ '9') || ('A' ≤ c && c ≤ 'H') || ('J' ≤ c && c ≤ 'N') ||
    ('P' ≤ c && c ≤ 'Z') || ('a' ≤ c && c ≤ 'k') || ('m' ≤ c && c ≤ 'z')

/-- Result of a single validation check, mirroring the
`{valid, error?}` objects of src/validate.js. -/
structure VResult where
  valid : Bool
  error : Option (List Char)
deriving DecidableEq

/-- Embedding of `validateWalletAddress` (validation module): `none` models
a null or non-string input; an empty string is also rejected by the
JavaScript falsiness check. -/
def validateWalletAddress : Option (List Char) → VResult
  | none => ⟨false, some (String.toList "Missing or invalid wallet address")⟩
  | some address =>
    if address = [] then
      ⟨false, some (String.toList "Missing or invalid wallet address")⟩
    else if trimWs address ≠ address then
      ⟨false, some (String.toList "Wallet address has leading/trailing whitespace")⟩
    else if address.length < 32 ∨ address.length > 44 then
      ⟨false, some ((String.toList "Invalid length: ") ++ (Nat.repr address.length).toList
        ++ (String.toList " chars (expected 32-44)"))⟩
    else if ¬ address.all isBase58Char then
      ⟨false, some (String.toList "Contains invalid characters (not valid base58)")⟩
    else ⟨true, none⟩

/-- CLAIM C5: `validateWalletAddress(p).valid` holds exactly when the input
is a string of 32 to 44 base-58 characters with no leading or trailing
whitespace; null or non-string input (modelled `none`) is invalid. -/
theorem validateWalletAddress_valid_iff :
    ∀ p : Option (List Char),
      (validateWalletAddress p).valid = true ↔
        ∃ a, p = some a ∧ 32 ≤ a.length ∧ a.length ≤ 44 ∧
          a.all isBase58Char = true ∧ trimWs a = a := by
  intro p
  cases p with
  | none =>
    constructor
    · intro h; cases h
    · rintro ⟨a, ha, _⟩; cases ha
  | some a =>
    constructor
    · intro h
      simp only [validateWalletAddress] at h
      by_cases h1 : a = []
      · rw [if_pos h1] at h; cases h
      rw [if_neg h1] at h
      by_cases h2 : trimWs a ≠ a
      · rw [if_pos h2] at h; cases h
      rw [if_neg h2] at h
      by_cases h3 : a.length < 32 ∨ a.length > 44
      · rw [if_pos h3] at h; cases h
      rw [if_neg h3] at h
      by_cases h4 : ¬ a.all isBase58Char
      · rw [if_pos h4] at h; cases h
      push_neg at h2 h3
      exact ⟨a, rfl, h3.1, h3.2, Bool.not_not_eq.mp (fun hh => h4 (by simpa using hh)), h2⟩
    · rintro ⟨b, hb, hlo, hhi, hall, htr⟩
      obtain rfl := Option.some.inj hb
      have h1 : a ≠ [] := by
        intro hh
        rw [hh] at hlo
        simp at hlo
      simp only [validateWalletAddress]
      rw [if_neg h1, if_neg (by simpa using htr),
        if_neg (by push_neg; exact ⟨hlo, hhi⟩), if_neg (by simpa using hall)]

/-- Character class `[^\s@]` of the email regex. -/
def emailClassChar (c : Char) : Bool :=
  !isJsWs c && c ≠ '@'

/-- Split a string at its first at-sign, if any. -/
def splitAtFirstAt : List Char → Option (List Char × List Char)
  | [] => none
  | c :: cs =>
    if c = '@' then some ([], cs)
    else (splitAtFirstAt cs).map (fun p => (c :: p.1, p.2))

/-- Language of the email regex `^[^\s@]+@[^\s@]+\.[^\s@]+$`: a nonempty
whitespace-free at-free local part, an at-sign, and a whitespace-free
at-free domain containing a dot that is neither its first nor its last
character. -/
def matchesEmailRegex (s : List Char) : Bool :=
  match splitAtFirstAt s with
  | none => false
  | some (localPart, domain) =>
    localPart ≠ [] && localPart.all emailClassChar &&
      domain.all emailClassChar && domain.tail.dropLast.contains '.'

/-- Result of `validateEmail`: the `missing` flag marks the empty-input
case that is valid but produces no notification. -/
structure EmailResult where
  valid : Bool
  missing : Bool
  error : Option (List Char)
deriving DecidableEq

/-- Embedding of `validateEmail` (validation module): empty or blank input
is valid (missing), otherwise the trimmed input must match the email
regex. -/
def validateEmail (email : List Char) : EmailResult :=
  if email = [] ∨ trimWs email = [] then ⟨true, true, none⟩
  else if ¬ matchesEmailRegex (trimWs email) then
    ⟨false, false, some (String.toList "Invalid email format")⟩
  else ⟨true, false, none⟩

/-- Participant record shape shared by the consolidation output, the
validator and the verifier: `{name, wallet, email, campus}` with absent
fields modelled as empty strings. -/
structure Participant where
  name : List Char
  wallet : List Char
  email : List Char
  campus : List Char
deriving DecidableEq

/-- Row-tagged message prefix `Row ${rowNum}: `. -/
def rowPrefix (rowNum : Nat) : List Char :=
  (String.toList "Row ") ++ (Nat.repr rowNum).toList ++ (String.toList ": ")

/-- The per-record warning text produced for an invalid email. -/
def emailWarnMsg (p : Participant) (index : Nat) : List Char :=
  rowPrefix (index + 1) ++ (String.toList "Invalid email format (email: \"") ++ p.email
    ++ (String.toList "\") - will skip email notification")

/-- Result of `validateParticipant`. -/
structure PValidation where
  valid : Bool
  errors : List (List Char)
  warnings : List (List Char)
deriving DecidableEq

/-- Embedding of `validateParticipant` (validation module): the wallet
check feeds the error list; the email and name checks feed the warning
list only; a record is valid when its error list is empty. -/
def validateParticipant (p : Participant) (index : Nat) : PValidation :=
  let rowNum := index + 1
  let errors : List (List Char) :=
    if p.wallet = [] then
      [rowPrefix rowNum ++ (String.toList "Missing wallet address")]
    else if (validateWalletAddress (some p.wallet)).valid then []
    else
      [rowPrefix rowNum ++ ((validateWalletAddress (some p.wallet)).error.getD [])
        ++ (String.toList " (wallet: \"") ++ p.wallet ++ (String.toList "\")")]
  let emailWarnings : List (List Char) :=
    if p.email ≠ [] then
      if (validateEmail p.email).valid then []
      else [emailWarnMsg p index]
    else
      [rowPrefix rowNum ++ (String.toList "No email address - will not receive notification")]
  let nameWarnings : List (List Char) :=
    if p.name = [] ∨ trimWs p.name = [] then
      [rowPrefix rowNum ++ (String.toList "No name provided (wallet: ") ++ p.wallet.take 8
        ++ (String.toList "...)")]
    else []
  ⟨errors.isEmpty, errors, emailWarnings ++ nameWarnings⟩

/-- Validation results of a list of participants in row order, starting at
the given index, as the `forEach` of `validateAllParticipants` produces
them. -/
def validateEach : Nat → List Participant → List PValidation
  | _, [] => []
  | i, p :: rest => validateParticipant p i :: validateEach (i + 1) rest

/-- Duplicate cluster shape returned by `findDuplicates`. -/
structure DupCluster where
  wallet : List Char
  indices : List Nat
  names : List (List Char)
deriving DecidableEq

/-- Wallet key used for duplicate detection: trimmed and lower-cased. -/
def walletKey (w : List Char) : List Char :=
  (trimWs w).map toLowerChar

/-- Append an element to a list unless it is already present; this is how
a JavaScript Map or Set grows in insertion order. -/
def pushNew (acc : List (List Char)) (k : List Char) : List (List Char) :=
  if k ∈ acc then acc else acc ++ [k]

/-- Embedding of `findDuplicates` (validation module): group row indices
and names by trimmed lower-cased wallet key in first-seen key order,
skipping wallet-less records, and keep the groups with more than one
member, tagged with the first original wallet spelling. -/
def findDuplicates (participants : List Participant) : List DupCluster :=
  let entries := participants.enum.filter (fun q => q.2.wallet ≠ [])
  let keys := entries.foldl (fun acc q => pushNew acc (walletKey q.2.wallet)) []
  (keys.map (fun k =>
    let group := entries.filter (fun q => walletKey q.2.wallet = k)
    { wallet := (group.headD (0, ⟨[], [], [], []⟩)).2.wallet,
      indices := group.map (fun q => q.1 + 1),
      names := group.map (fun q => if q.2.name = [] then String.toList "Unknown" else q.2.name) })).filter
    (fun d => 1 < d.indices.length)

/-- Validation report shape of `validateAllParticipants`. -/
structure VReport where
  total : Nat
  valid : Nat
  invalid : Nat
  errors : List (List Char)
  warnings : List (List Char)
  duplicates : List DupCluster
  withEmail : Nat
  withoutEmail : Nat
deriving DecidableEq

/-- Embedding of `validateAllParticipants` (validation module): an empty
input yields the data-format error; otherwise each record is validated in
row order, errors and warnings are concatenated in that order, valid and
invalid records counted, email coverage counted, and duplicates listed. -/
def validateAllParticipants (participants : List Participant) : VReport :=
  if participants = [] then
    ⟨0, 0, 0, [String.toList "No participants found or invalid data format"], [], [], 0, 0⟩
  else
    let results := validateEach 0 participants
    { total := participants.length
      valid := (results.filter (fun r => r.valid)).length
      invalid := (results.filter (fun r => !r.valid)).length
      errors := results.flatMap (fun r => r.errors)
      warnings := results.flatMap (fun r => r.warnings)
      duplicates := findDuplicates participants
      withEmail := (participants.filter (fun p => p.email ≠ [] ∧ trimWs p.email ≠ [])).length
      withoutEmail := (participants.filter (fun p => ¬ (p.email ≠ [] ∧ trimWs p.email ≠ []))).length }

/-- Validating a split list validates both parts with consecutive row
indices. -/
theorem validateEach_append (i : Nat) (l1 l2 : List Participant) (p : Participant) :
    validateEach i (l1 ++ p :: l2) =
      validateEach i l1 ++ validateParticipant p (i + l1.length)
        :: validateEach (i + l1.length + 1) l2 := by
  induction l1 generalizing i with
  | nil => simp [validateEach]
  | cons q qs ih =>
    simp only [List.cons_append, validateEach, List.length_cons]
    rw [show qs.append (p :: l2) = qs ++ p :: l2 from rfl, ih (i + 1)]
    have e1 : i + 1 + qs.length = i + (qs.length + 1) := by omega
    rw [e1]

/-- CLAIM C2 (amended): for every participant whose email fails validation,
the InvalidFormat message is accumulated in the warning list — of the
per-record result and of the aggregated report — not in the error list:
the record's error list is exactly what it would be with an empty email,
and the record is classified invalid only by its errors, so a record whose
only problem is a malformed email stays valid. -/
theorem validateParticipant_email_warning (p : Participant) (i : Nat)
    (h : (validateEmail p.email).valid = false) :
    emailWarnMsg p i ∈ (validateParticipant p i).warnings ∧
    (validateParticipant p i).errors = (validateParticipant ⟨p.name, p.wallet, [], p.campus⟩ i).errors ∧
    ((validateParticipant p i).valid = true ↔ (validateParticipant p i).errors = []) ∧
    (∀ l1 l2 : List Participant,
      emailWarnMsg p l1.length ∈ (validateAllParticipants (l1 ++ p :: l2)).warnings) := by
  have hne : p.email ≠ [] := by
    intro hh
    rw [validateEmail, if_pos (Or.inl hh)] at h
    cases h
  have hmem : emailWarnMsg p i ∈ (validateParticipant p i).warnings := by
    simp only [validateParticipant]
    apply List.mem_append_left
    rw [if_pos hne, if_neg (by simp [h])]
    exact List.mem_cons_self _ _
  refine ⟨hmem, rfl, ?_, ?_⟩
  · show ((validateParticipant p i).errors.isEmpty = true) ↔ _
    exact List.isEmpty_iff
  · intro l1 l2
    have hlist : (l1 ++ p :: l2) ≠ [] := by simp
    simp only [validateAllParticipants, if_neg hlist]
    rw [validateEach_append 0 l1 l2 p]
    apply List.mem_flatMap.mpr
    refine ⟨validateParticipant p (0 + l1.length), ?_, ?_⟩
    · exact List.mem_append_right _ (List.mem_cons_self _ _)
    · have hmem2 := hmem
      have : (0 : Nat) + l1.length = l1.length := Nat.zero_add _
      rw [this]
      simp only [validateParticipant]
      apply List.mem_append_left
      rw [if_pos hne, if_neg (by simp [h])]
      exact List.mem_cons_self _ _

/-- Witness for the amended C2 theorem: a concrete record with a valid
wallet and the malformed email assembles its warning message. -/
theorem validateParticipant_email_warning_witness :
    emailWarnMsg ⟨String.toList "x", String.toList "11111111111111111111111111111111",
        String.toList "bad", String.toList "L"⟩ 0 ∈
      (validateParticipant ⟨String.toList "x", String.toList "11111111111111111111111111111111",
        String.toList "bad", String.toList "L"⟩ 0).warnings :=
  (validateParticipant_email_warning _ 0 (by decide)).1

/-- CLAIM C2 counterexample: a record whose only defect is a malformed
non-empty email has an empty error list and is classified valid, contrary
to the claim that the failure lands in the error list and invalidates the
record. -/
theorem validateParticipant_email_counterexample :
    (validateEmail (String.toList "bad")).valid = false ∧
    (validateParticipant ⟨String.toList "x", String.toList "11111111111111111111111111111111",
        String.toList "bad", String.toList "L"⟩ 0).valid = true ∧
    (validateParticipant ⟨String.toList "x", String.toList "11111111111111111111111111111111",
        String.toList "bad", String.toList "L"⟩ 0).errors = [] := by
  decide

/-- Embedding of `removeDuplicates` (validation module): the filter keeps a
record when it has a wallet whose trimmed lower-cased key has not been
seen, adding kept keys to the seen set as the traversal proceeds. -/
def removeDupAux (seen : List (List Char)) : List Participant → List Participant
  | [] => []
  | p :: rest =>
    if p.wallet = [] then removeDupAux seen rest
    else if walletKey p.wallet ∈ seen then removeDupAux seen rest
    else p :: removeDupAux (walletKey p.wallet :: seen) rest

/-- Embedding of `removeDuplicates`: run the stateful filter with an empty
seen set. -/
def removeDuplicates (participants : List Participant) : List Participant :=
  removeDupAux [] participants

/-- Formalization of the claim in C9: the output contains exactly the first
occurrence of each distinct case-insensitively trimmed nonempty wallet
address, and records without a wallet are dropped entirely. -/
def keepFirstOccurrences : List Participant → List Participant
  | [] => []
  | p :: rest =>
    if p.wallet = [] then keepFirstOccurrences rest
    else p :: keepFirstOccurrences (rest.filter (fun q => walletKey q.wallet ≠ walletKey p.wallet))
termination_by l => l.length
decreasing_by
  · simp
  · exact Nat.lt_succ_of_le (List.length_filter_le _ _)

/-- The stateful filter equals the first-occurrence specification applied
to the records whose key is not yet seen. -/
theorem removeDupAux_eq (ps : List Participant) :
    ∀ seen, removeDupAux seen ps =
      keepFirstOccurrences (ps.filter (fun p => walletKey p.wallet ∉ seen)) := by
  induction ps with
  | nil => intro seen; simp [removeDupAux, keepFirstOccurrences]
  | cons p rest ih =>
    intro seen
    by_cases hw : p.wallet = []
    · by_cases hs : walletKey p.wallet ∈ seen
      · rw [show removeDupAux seen (p :: rest) = removeDupAux seen rest by
          simp [removeDupAux, hw]]
        rw [List.filter_cons_of_neg (by simpa using hs)]
        exact ih seen
      · rw [show removeDupAux seen (p :: rest) = removeDupAux seen rest by
          simp [removeDupAux, hw]]
        rw [List.filter_cons_of_pos (by simpa using hs)]
        rw [show keepFirstOccurrences (p :: rest.filter (fun q => walletKey q.wallet ∉ seen)) =
          keepFirstOccurrences ((rest.filter (fun q => walletKey q.wallet ∉ seen))) by
          rw [keepFirstOccurrences]; simp [hw]]
        exact ih seen
    · by_cases hs : walletKey p.wallet ∈ seen
      · rw [show removeDupAux seen (p :: rest) = removeDupAux seen rest by
          simp [removeDupAux, hw, hs]]
        rw [List.filter_cons_of_neg (by simpa using hs)]
        exact ih seen
      · rw [show removeDupAux seen (p :: rest) =
          p :: removeDupAux (walletKey p.wallet :: seen) rest by
          simp [removeDupAux, hw, hs]]
        rw [List.filter_cons_of_pos (by simpa using hs)]
        rw [show keepFirstOccurrences (p :: rest.filter (fun q => walletKey q.wallet ∉ seen)) =
          p :: keepFirstOccurrences ((rest.filter (fun q => walletKey q.wallet ∉ seen)).filter
            (fun q => walletKey q.wallet ≠ walletKey p.wallet)) by
          rw [keepFirstOccurrences]; simp [hw]]
        rw [ih (walletKey p.wallet :: seen)]
        congr 1
        rw [List.filter_filter]
        congr 1
        apply List.filter_congr
        intro q hq
        by_cases h1 : walletKey q.wallet = walletKey p.wallet
        · simp [h1]
        · by_cases h2 : walletKey q.wallet ∈ seen
          · simp [h1, h2]
          · simp [h1, h2]

/-- Every record kept by the first-occurrence specification has a wallet. -/
theorem keepFirstOccurrences_wallet_ne :
    ∀ (n : Nat) (l : List Participant), l.length ≤ n →
      ∀ p ∈ keepFirstOccurrences l, p.wallet ≠ [] := by
  intro n
  induction n with
  | zero =>
    intro l hl p hp
    have : l = [] := List.eq_nil_of_length_eq_zero (Nat.le_zero.mp hl)
    subst this
    simp [keepFirstOccurrences] at hp
  | succ n ih =>
    intro l hl p hp
    cases l with
    | nil => simp [keepFirstOccurrences] at hp
    | cons q rest =>
      rw [keepFirstOccurrences] at hp
      by_cases hw : q.wallet = []
      · rw [if_pos hw] at hp
        exact ih rest (by simpa using Nat.le_of_succ_le_succ (by simpa using hl)) p hp
      · rw [if_neg hw] at hp
        rcases List.mem_cons.mp hp with rfl | hp2
        · exact hw
        · exact ih _ (le_trans (List.length_filter_le _ _)
            (Nat.le_of_succ_le_succ (by simpa using hl))) p hp2

/-- CLAIM C9: removeDuplicates keeps exactly the first occurrence of each
distinct case-insensitively trimmed nonempty wallet address and drops every
record whose wallet field is missing or empty. -/
theorem removeDuplicates_first_occurrences (ps : List Participant) :
    removeDuplicates ps = keepFirstOccurrences ps ∧
      ∀ p ∈ removeDuplicates ps, p.wallet ≠ [] := by
  have h1 : removeDuplicates ps = keepFirstOccurrences ps := by
    unfold removeDuplicates
    rw [removeDupAux_eq ps []]
    congr 1
    simp
  exact ⟨h1, by
    rw [h1]
    exact keepFirstOccurrences_wallet_ne ps.length ps le_rfl⟩

/-- Wallet-export record as loaded in STEP 1 of consolidate-data.js, with
the canonical comparison name precomputed as in the source. -/
structure WalletEntry where
  name : List Char
  normalizedName : List Char
  wallet : List Char
  programId : List Char
  github : List Char
deriving DecidableEq

/-- Registration record as merged by email in STEP 2 of
consolidate-data.js. -/
structure Registration where
  name : List Char
  normalizedName : List Char
  email : List Char
  campuses : List (List Char)
  daysAttended : Nat
  attended : Bool
deriving DecidableEq

/-- The `walletsByName` map of STEP 1: an insertion-ordered association
list from normalized name to wallet entry, first entry winning on
collisions. -/
def buildWalletsByName (entries : List WalletEntry) : List (List Char × WalletEntry) :=
  entries.foldl (fun m e =>
    if (m.lookup e.normalizedName).isSome then m else m ++ [(e.normalizedName, e)]) []

/-- Row of the `matched` output collection; the percent-formatted
confidence string of the source is modelled by the exact rational score. -/
structure MatchedRow where
  name : List Char
  wallet : List Char
  email : List Char
  campus : List Char
  campuses : List (List Char)
  daysAttended : Nat
  github : List Char
  matchMethod : List Char
  confidence : ℚ
deriving DecidableEq

/-- Row of the `reviewNeeded` output collection. -/
structure ReviewRow where
  lumaName : List Char
  lumaEmail : List Char
  suggestedMatch : List Char
  suggestedWallet : List Char
  confidence : ℚ
  campuses : List (List Char)
deriving DecidableEq

/-- Row of the `missingWallets` output collection. -/
structure MissingRow where
  name : List Char
  email : List Char
  campuses : List (List Char)
  daysAttended : Nat
deriving DecidableEq

/-- Mutable state of the matching loop in STEP 3 of consolidate-data.js:
the three output collections plus the consumed-wallet set. -/
structure MatchState where
  matched : List MatchedRow
  reviewNeeded : List ReviewRow
  missingWallets : List MissingRow
  usedWallets : List (List Char)
deriving DecidableEq

/-- Initial matching state: everything empty. -/
def initialMatchState : MatchState := ⟨[], [], [], []⟩

/-- The fuzzy scan of the matching loop: walk `walletsByName` in insertion
order, skip wallets already consumed, and keep the entry with the strictly
highest similarity to the registration's normalized name, together with
that best score (0 with no entry when nothing scores above 0). -/
def bestFuzzy (regNorm : List Char) (used : List (List Char))
    (wbn : List (List Char × WalletEntry)) : Option WalletEntry × ℚ :=
  wbn.foldl (fun best q =>
    if q.2.wallet ∈ used then best
    else
      let score := similarity regNorm q.1
      if score > best.2 then (some q.2, score) else best) (none, 0)

/-- Matched-row constructor shared by the exact and fuzzy branches of the
loop: the registration name (or the wallet name when empty), the matched
wallet, the registration's email, first campus, campuses and attendance,
the wallet's github handle, and the match method with its confidence. -/
def mkMatched (reg : Registration) (we : WalletEntry) (method : List Char)
    (conf : ℚ) : MatchedRow :=
  { name := if reg.name ≠ [] then reg.name else we.name
    wallet := we.wallet
    email := reg.email
    campus := reg.campuses.headD []
    campuses := reg.campuses
    daysAttended := reg.daysAttended
    github := we.github
    matchMethod := method
    confidence := conf }

/-- Review-row constructor of the low-confidence branch. -/
def mkReview (reg : Registration) (bm : WalletEntry) (score : ℚ) : ReviewRow :=
  { lumaName := reg.name
    lumaEmail := reg.email
    suggestedMatch := bm.name
    suggestedWallet := bm.wallet
    confidence := score
    campuses := reg.campuses }

/-- Missing-wallet row constructor of the no-match branch. -/
def mkMissing (reg : Registration) : MissingRow :=
  { name := reg.name
    email := reg.email
    campuses := reg.campuses
    daysAttended := reg.daysAttended }

/-- Body of the matching loop of STEP 3 for one registration: exact lookup
by canonical name first (note: without consulting `usedWallets`), then the
fuzzy scan over unconsumed wallets against the 0.85 accept and 0.70 review
thresholds. -/
def matchStep (wbn : List (List Char × WalletEntry)) (st : MatchState)
    (reg : Registration) : MatchState :=
  match wbn.lookup reg.normalizedName with
  | some we =>
    { st with
        matched := st.matched ++ [mkMatched reg we (String.toList "exact") 1]
        usedWallets := pushNew st.usedWallets we.wallet }
  | none =>
    match bestFuzzy reg.normalizedName st.usedWallets wbn with
    | (some bm, bestScore) =>
      if bestScore ≥ 85/100 then
        { st with
            matched := st.matched ++ [mkMatched reg bm (String.toList "fuzzy") bestScore]
            usedWallets := pushNew st.usedWallets bm.wallet }
      else if bestScore ≥ 7/10 then
        { st with reviewNeeded := st.reviewNeeded ++ [mkReview reg bm bestScore] }
      else
        { st with missingWallets := st.missingWallets ++ [mkMissing reg] }
    | (none, _) =>
      { st with missingWallets := st.missingWallets ++ [mkMissing reg] }

/-- The full matching loop of STEP 3 over all registrations in encounter
order. -/
def runMatch (walletData : List WalletEntry) (regs : List Registration) : MatchState :=
  regs.foldl (matchStep (buildWalletsByName walletData)) initialMatchState

/-- The walk-in pass after the loop: every wallet record never consumed
becomes a no-email row. -/
def noEmailEntries (walletData : List WalletEntry) (used : List (List Char)) :
    List WalletEntry :=
  walletData.filter (fun e => e.wallet ∉ used)

/-- STEP 5 of consolidate-data.js: the consolidated participant list is the
matched rows followed by the unconsumed wallets as WALK-IN participants
with empty email. -/
def allParticipants (walletData : List WalletEntry) (regs : List Registration) :
    List Participant :=
  let st := runMatch walletData regs
  st.matched.map (fun m => ⟨m.name, m.wallet, m.email, m.campus⟩)
    ++ (noEmailEntries walletData st.usedWallets).map
        (fun e => ⟨e.name, e.wallet, [], String.toList "WALK-IN"⟩)

/-- CLAIM C1 counterexample: two registrations with different emails but
the same canonical name both hit the exact-lookup path, which never
consults `usedWallets`, so both emitted Participants carry the same
walletAddress — wallet-consumption exclusivity fails. -/
theorem wallet_exclusivity_counterexample :
    ¬ ((allParticipants
        [⟨String.toList "Ada", normalizeName (String.toList "Ada"),
          String.toList "WALLETONE", [], []⟩]
        [⟨String.toList "Ada", normalizeName (String.toList "Ada"),
          String.toList "a@x.com", [String.toList "L"], 1, true⟩,
         ⟨String.toList "Ada", normalizeName (String.toList "Ada"),
          String.toList "b@x.com", [String.toList "L"], 1, true⟩]).map
      (fun p => p.wallet)).Nodup := by
  decide

/-- Wallet addresses of the fuzzy-matched rows of a state. -/
def fuzzyWallets (st : MatchState) : List (List Char) :=
  (st.matched.filter (fun m => m.matchMethod = String.toList "fuzzy")).map
    (fun m => m.wallet)

/-- The original list is contained in its pushNew extension. -/
theorem subset_pushNew (acc : List (List Char)) (k : List Char) :
    acc ⊆ pushNew acc k := by
  unfold pushNew
  by_cases h : k ∈ acc
  · rw [if_pos h]
    exact List.Subset.refl acc
  · rw [if_neg h]
    exact List.subset_append_left acc [k]

/-- The pushed key is in the pushNew extension. -/
theorem mem_pushNew (acc : List (List Char)) (k : List Char) : k ∈ pushNew acc k := by
  unfold pushNew
  by_cases h : k ∈ acc
  · rw [if_pos h]; exact h
  · rw [if_neg h]
    exact List.mem_append_right acc (List.mem_cons_self k [])

/-- The fuzzy scan never selects a consumed wallet. -/
theorem bestFuzzy_not_used (regNorm : List Char) (used : List (List Char))
    (wbn : List (List Char × WalletEntry)) :
    ∀ e s, bestFuzzy regNorm used wbn = (some e, s) → e.wallet ∉ used := by
  unfold bestFuzzy
  suffices h : ∀ (b : Option WalletEntry × ℚ),
      (∀ e, b.1 = some e → e.wallet ∉ used) →
      ∀ e s, wbn.foldl (fun best q =>
        if q.2.wallet ∈ used then best
        else
          let score := similarity regNorm q.1
          if score > best.2 then (some q.2, score) else best) b = (e, s) →
        ∀ e2, e = some e2 → e2.wallet ∉ used by
    intro e s heq
    exact h (none, 0) (by intro e2 h2; cases h2) (some e) s heq e rfl
  induction wbn with
  | nil =>
    intro b hb e s heq e2 he
    rw [List.foldl_nil] at heq
    have hb1 : b.1 = e := by rw [heq]
    exact hb e2 (hb1.trans he)
  | cons q qs ih =>
    intro b hb e s heq e2 he
    rw [List.foldl_cons] at heq
    by_cases hq : q.2.wallet ∈ used
    · rw [if_pos hq] at heq
      exact ih b hb e s heq e2 he
    · rw [if_neg hq] at heq
      by_cases hsc : similarity regNorm q.1 > b.2
      · simp only [if_pos hsc] at heq
        refine ih (some q.2, similarity regNorm q.1) ?_ e s heq e2 he
        intro e3 he3
        obtain rfl : q.2 = e3 := by injection he3
        exact hq
      · simp only [if_neg hsc] at heq
        exact ih b hb e s heq e2 he

/-- The consumed-wallet set only grows across a matching step. -/
theorem matchStep_used_mono (wbn : List (List Char × WalletEntry))
    (st : MatchState) (reg : Registration) :
    st.usedWallets ⊆ (matchStep wbn st reg).usedWallets := by
  unfold matchStep
  cases h : wbn.lookup reg.normalizedName with
  | some we => exact subset_pushNew _ _
  | none =>
    cases hb : bestFuzzy reg.normalizedName st.usedWallets wbn with
    | mk bo s =>
      cases bo with
      | some bm =>
        by_cases h85 : s ≥ 85/100
        · simp only [if_pos h85]
          exact subset_pushNew _ _
        · by_cases h70 : s ≥ 7/10
          · simp only [if_neg h85, if_pos h70]
            exact fun a ha => ha
          · simp only [if_neg h85, if_neg h70]
            exact fun a ha => ha
      | none => exact fun a ha => ha

/-- The two match-method tags are distinct strings. -/
theorem exact_ne_fuzzy : String.toList "exact" ≠ String.toList "fuzzy" := by
  decide

/-- Fuzzy invariant: the fuzzy-matched wallets are pairwise distinct and
all recorded as consumed; preserved by every matching step. -/
theorem matchStep_fuzzy_invariant (wbn : List (List Char × WalletEntry))
    (st : MatchState) (reg : Registration)
    (h1 : ∀ w ∈ fuzzyWallets st, w ∈ st.usedWallets)
    (h2 : (fuzzyWallets st).Nodup) :
    (∀ w ∈ fuzzyWallets (matchStep wbn st reg),
        w ∈ (matchStep wbn st reg).usedWallets) ∧
      (fuzzyWallets (matchStep wbn st reg)).Nodup := by
  unfold matchStep
  cases h : wbn.lookup reg.normalizedName with
  | some we =>
    have hfw : fuzzyWallets
        { st with
            matched := st.matched ++ [mkMatched reg we (String.toList "exact") 1]
            usedWallets := pushNew st.usedWallets we.wallet } = fuzzyWallets st := by
      unfold fuzzyWallets
      rw [List.filter_append]
      rw [show (List.filter (fun m => decide (m.matchMethod = String.toList "fuzzy"))
          [mkMatched reg we (String.toList "exact") 1]) = [] from rfl]
      simp
    rw [hfw]
    exact ⟨fun w hw => subset_pushNew _ _ (h1 w hw), h2⟩
  | none =>
    cases hb : bestFuzzy reg.normalizedName st.usedWallets wbn with
    | mk bo s =>
      cases bo with
      | some bm =>
        have hbm : bm.wallet ∉ st.usedWallets :=
          bestFuzzy_not_used reg.normalizedName st.usedWallets wbn bm s hb
        by_cases h85 : s ≥ 85/100
        · simp only [if_pos h85]
          have hfw : fuzzyWallets
              { st with
                  matched := st.matched ++ [mkMatched reg bm (String.toList "fuzzy") s]
                  usedWallets := pushNew st.usedWallets bm.wallet } =
              fuzzyWallets st ++ [bm.wallet] := by
            unfold fuzzyWallets
            rw [List.filter_append, List.map_append]
            congr 1
          rw [hfw]
          constructor
          · intro w hw
            rcases List.mem_append.mp hw with hw2 | hw2
            · exact subset_pushNew _ _ (h1 w hw2)
            · simp at hw2
              rw [hw2]
              exact mem_pushNew _ _
          · rw [List.nodup_append]
            refine ⟨h2, List.nodup_singleton _, ?_⟩
            intro w hw hw2
            simp at hw2
            rw [hw2] at hw
            exact hbm (h1 _ hw)
        · by_cases h70 : s ≥ 7/10
          · simp only [if_neg h85, if_pos h70]
            exact ⟨h1, h2⟩
          · simp only [if_neg h85, if_neg h70]
            exact ⟨h1, h2⟩
      | none => exact ⟨h1, h2⟩

/-- The fuzzy invariant holds for the final state of the matching loop. -/
theorem runMatch_fuzzy_invariant (walletData : List WalletEntry) (regs : List Registration) :
    (∀ w ∈ fuzzyWallets (runMatch walletData regs),
        w ∈ (runMatch walletData regs).usedWallets) ∧
      (fuzzyWallets (runMatch walletData regs)).Nodup := by
  unfold runMatch
  suffices h : ∀ (st : MatchState),
      (∀ w ∈ fuzzyWallets st, w ∈ st.usedWallets) → (fuzzyWallets st).Nodup →
      (∀ w ∈ fuzzyWallets (regs.foldl (matchStep (buildWalletsByName walletData)) st),
          w ∈ (regs.foldl (matchStep (buildWalletsByName walletData)) st).usedWallets) ∧
        (fuzzyWallets (regs.foldl (matchStep (buildWalletsByName walletData)) st)).Nodup by
    refine h initialMatchState ?_ ?_
    · intro w hw
      simp [fuzzyWallets, initialMatchState] at hw
    · simp [fuzzyWallets, initialMatchState]
  induction regs with
  | nil => intro st a b; exact ⟨a, b⟩
  | cons r rs ih =>
    intro st a b
    rw [List.foldl_cons]
    have step := matchStep_fuzzy_invariant (buildWalletsByName walletData) st r a b
    exact ih _ step.1 step.2

/-- CLAIM C1 (amended): assuming the wallet records carry pairwise-distinct
addresses, no two Participants emitted by the fuzzy path or the walk-in
pass share a walletAddress — the fuzzy scan skips consumed wallets and the
walk-in pass takes only unconsumed ones.  The exact-lookup path, however,
emits without checking prior consumption (see the counterexample), so
exclusivity does not extend to exact matches. -/
theorem fuzzy_walkin_wallet_exclusivity (walletData : List WalletEntry)
    (regs : List Registration)
    (h : (walletData.map (fun e => e.wallet)).Nodup) :
    (fuzzyWallets (runMatch walletData regs) ++
      (noEmailEntries walletData (runMatch walletData regs).usedWallets).map
        (fun e => e.wallet)).Nodup := by
  obtain ⟨hsub, hnd⟩ := runMatch_fuzzy_invariant walletData regs
  rw [List.nodup_append]
  refine ⟨hnd, ?_, ?_⟩
  · have hsl : ((noEmailEntries walletData (runMatch walletData regs).usedWallets).map
        (fun e => e.wallet)).Sublist (walletData.map (fun e => e.wallet)) :=
      List.Sublist.map _ (List.filter_sublist _)
    exact h.sublist hsl
  · intro w hw hw2
    rcases List.mem_map.mp hw2 with ⟨e, he, heq⟩
    have hnotused := (List.mem_filter.mp he).2
    have : e.wallet ∉ (runMatch walletData regs).usedWallets := of_decide_eq_true hnotused
    rw [heq] at this
    exact this (hsub w hw)

/-- Witness for the amended C1 theorem on a concrete one-wallet input. -/
theorem fuzzy_walkin_wallet_exclusivity_witness :
    (fuzzyWallets (runMatch
        [⟨String.toList "Bea", normalizeName (String.toList "Bea"),
          String.toList "WALLETTWO", [], []⟩] []) ++
      (noEmailEntries
        [⟨String.toList "Bea", normalizeName (String.toList "Bea"),
          String.toList "WALLETTWO", [], []⟩]
        (runMatch
          [⟨String.toList "Bea", normalizeName (String.toList "Bea"),
            String.toList "WALLETTWO", [], []⟩] []).usedWallets).map
        (fun e => e.wallet)).Nodup :=
  fuzzy_walkin_wallet_exclusivity
    [⟨String.toList "Bea", normalizeName (String.toList "Bea"),
      String.toList "WALLETTWO", [], []⟩] [] (by decide)

/-- CLAIM C6 (amended): for every registration with no exact canonical-name
match whose best similarity over unconsumed wallets is at least 0.70 and
below 0.85, the matching step emits a ReviewCandidate, leaves the matched
list untouched (the registration is not a Participant), and consumes no
wallet.  The concrete scenario "Jon Smyth" vs "John Smith" falls in this
band, but its score is 1 - 2/10 = 0.8 (maxLen is the longer string, 10),
not 1 - 2/9 as the claim computes. -/
theorem review_band_step (wbn : List (List Char × WalletEntry)) (st : MatchState)
    (reg : Registration) (bm : WalletEntry) (s : ℚ)
    (hex : wbn.lookup reg.normalizedName = none)
    (hbest : bestFuzzy reg.normalizedName st.usedWallets wbn = (some bm, s))
    (hlo : 7/10 ≤ s) (hhi : s < 85/100) :
    (matchStep wbn st reg).reviewNeeded = st.reviewNeeded ++ [mkReview reg bm s] ∧
      (matchStep wbn st reg).matched = st.matched ∧
      (matchStep wbn st reg).usedWallets = st.usedWallets ∧
      (matchStep wbn st reg).missingWallets = st.missingWallets := by
  unfold matchStep
  rw [hex, hbest]
  simp only []
  rw [if_neg (not_le.mpr hhi), if_pos hlo]
  exact ⟨rfl, rfl, rfl, rfl⟩

/-- Similarity of the scenario names: edit distance 2 over maximum length
10 gives 4/5. -/
theorem sim_jon_john :
    similarity (String.toList "jon smyth") (String.toList "john smith") = 4/5 := by
  have h : levDistance (trimWs (List.map toLowerChar (String.toList "jon smyth")))
      (trimWs (List.map toLowerChar (String.toList "john smith"))) = 2 := rfl
  have h9 : (trimWs (List.map toLowerChar (String.toList "jon smyth"))).length = 9 := rfl
  have h10 : (trimWs (List.map toLowerChar (String.toList "john smith"))).length = 10 := rfl
  simp only [similarity]
  rw [if_neg (by decide), if_neg (by decide), h, h9, h10]
  norm_num

/-- CLAIM C6 counterexample: the scenario score is 4/5 = 0.8, not
1 - 2/9 ≈ 0.778 as the claim states — the denominator is the longer
string's length 10, not 9. -/
theorem review_score_counterexample :
    similarity (String.toList "jon smyth") (String.toList "john smith") = 4/5 ∧
      (4/5 : ℚ) ≠ 1 - 2/9 :=
  ⟨sim_jon_john, by norm_num⟩

/-- Wallet entry of the C6 scenario. -/
def jsWalletEntry : WalletEntry :=
  ⟨String.toList "John Smith", normalizeName (String.toList "John Smith"),
    String.toList "WALLETJS", [], []⟩

/-- Registration of the C6 scenario. -/
def jonRegistration : Registration :=
  ⟨String.toList "Jon Smyth", normalizeName (String.toList "Jon Smyth"),
    String.toList "jon@x.com", [String.toList "LAG"], 1, true⟩

/-- Witness for the amended C6 theorem: the scenario registration is
emitted as a ReviewCandidate with score 0.8 and nothing else changes. -/
theorem review_band_step_witness :
    (matchStep (buildWalletsByName [jsWalletEntry]) initialMatchState
        jonRegistration).reviewNeeded =
      initialMatchState.reviewNeeded ++ [mkReview jonRegistration jsWalletEntry (4/5)] ∧
    (matchStep (buildWalletsByName [jsWalletEntry]) initialMatchState
        jonRegistration).matched = initialMatchState.matched ∧
    (matchStep (buildWalletsByName [jsWalletEntry]) initialMatchState
        jonRegistration).usedWallets = initialMatchState.usedWallets ∧
    (matchStep (buildWalletsByName [jsWalletEntry]) initialMatchState
        jonRegistration).missingWallets = initialMatchState.missingWallets := by
  have hsim2 : similarity jonRegistration.normalizedName
      (normalizeName (String.toList "John Smith")) = 4/5 := sim_jon_john
  have hfold : bestFuzzy jonRegistration.normalizedName initialMatchState.usedWallets
      (buildWalletsByName [jsWalletEntry]) =
      (if similarity jonRegistration.normalizedName
          (normalizeName (String.toList "John Smith")) > 0
       then (some jsWalletEntry,
         similarity jonRegistration.normalizedName (normalizeName (String.toList "John Smith")))
       else (none, 0)) := rfl
  have hbest : bestFuzzy jonRegistration.normalizedName initialMatchState.usedWallets
      (buildWalletsByName [jsWalletEntry]) = (some jsWalletEntry, 4/5) := by
    rw [hfold, hsim2, if_pos (by norm_num)]
  exact review_band_step (buildWalletsByName [jsWalletEntry]) initialMatchState
    jonRegistration jsWalletEntry (4/5) (by decide) hbest (by norm_num) (by norm_num)

/-- Embedding of `isValidSolanaAddress` (utils module): a base-58 string of
32 to 44 characters. -/
def isValidSolanaAddress (address : List Char) : Bool :=
  !address.isEmpty && decide (32 ≤ address.length) && decide (address.length ≤ 44) &&
    address.all isBase58Char

/-- One fetched signature entry: `{signature, blockTime}` with the block
time possibly absent. -/
structure SigInfo where
  signature : List Char
  blockTime : Option Int
deriving DecidableEq

/-- Result of `checkWalletActivity` (src/verify.js). -/
structure ActivityResult where
  isBuilder : Bool
  transactionCount : Nat
  firstTx : Option (List Char)
  error : Option (List Char)
deriving DecidableEq

/-- The in-window filter of `checkWalletActivity`: entries with a falsy
(absent or zero) block time are dropped, otherwise the block time must lie
in the closed window. -/
def inWindowJs (startTime endTime : Int) (s : SigInfo) : Bool :=
  match s.blockTime with
  | none => false
  | some t => if t = 0 then false else decide (startTime ≤ t) && decide (t ≤ endTime)

/-- Embedding of `checkWalletActivity` (src/verify.js): the ledger query
outcome is passed in as an `Except` value — an address failing the format
check short-circuits before it is inspected; a query failure is caught and
tagged; otherwise the newest-first signature list is filtered to the
window, counted, and the oldest in-window entry (the last in iteration
order) becomes `firstTx`. -/
def checkWalletActivity (walletAddress : List Char)
    (ledger : Except (List Char) (List SigInfo))
    (startTime endTime : Int) : ActivityResult :=
  if ¬ isValidSolanaAddress walletAddress then
    ⟨false, 0, none, some (String.toList "Invalid address")⟩
  else
    match ledger with
    | .error msg => ⟨false, 0, none, some msg⟩
    | .ok signatures =>
      if signatures = [] then ⟨false, 0, none, none⟩
      else
        let relevantTxs := signatures.filter (inWindowJs startTime endTime)
        ⟨decide (0 < relevantTxs.length), relevantTxs.length,
          (relevantTxs.getLast?).map (fun s => s.signature), none⟩

/-- Builder row of `verifyAllParticipants`: the participant plus its
transaction count and first relevant transaction. -/
structure BuilderRow where
  participant : Participant
  transactionCount : Nat
  firstTx : Option (List Char)
deriving DecidableEq

/-- Non-builder row of `verifyAllParticipants`: the participant plus the
error tag, if any. -/
structure NonBuilderRow where
  participant : Participant
  error : Option (List Char)
deriving DecidableEq

/-- Embedding of `verifyAllParticipants` (src/verify.js): classify each
participant in input order against the ledger oracle, partitioning into
builders and non-builders; the pacing delay and progress callback are
reporting side-channels with no effect on the result. -/
def verifyAllParticipants (oracle : List Char → Except (List Char) (List SigInfo))
    (startTime endTime : Int) :
    List Participant → List BuilderRow × List NonBuilderRow
  | [] => ([], [])
  | p :: rest =>
    let result := checkWalletActivity p.wallet (oracle p.wallet) startTime endTime
    let out := verifyAllParticipants oracle startTime endTime rest
    if result.isBuilder then
      (⟨p, result.transactionCount, result.firstTx⟩ :: out.1, out.2)
    else
      (out.1, ⟨p, result.error⟩ :: out.2)

/-- CLAIM C10: the verifier partitions its input exactly — the builders are
precisely the input participants classified as builders in input order, the
non-builders precisely the rest in input order, and the two output sizes
add up to the input size. -/
theorem verifyAllParticipants_partition
    (oracle : List Char → Except (List Char) (List SigInfo))
    (startTime endTime : Int) (ps : List Participant) :
    (verifyAllParticipants oracle startTime endTime ps).1.map (fun b => b.participant)
        = ps.filter (fun p =>
            (checkWalletActivity p.wallet (oracle p.wallet) startTime endTime).isBuilder) ∧
      (verifyAllParticipants oracle startTime endTime ps).2.map (fun n => n.participant)
        = ps.filter (fun p =>
            !(checkWalletActivity p.wallet (oracle p.wallet) startTime endTime).isBuilder) ∧
      (verifyAllParticipants oracle startTime endTime ps).1.length
          + (verifyAllParticipants oracle startTime endTime ps).2.length = ps.length := by
  induction ps with
  | nil => exact ⟨rfl, rfl, rfl⟩
  | cons p rest ih =>
    simp only [verifyAllParticipants]
    by_cases hb : (checkWalletActivity p.wallet (oracle p.wallet) startTime endTime).isBuilder
    · rw [if_pos hb]
      refine ⟨?_, ?_, ?_⟩
      · simp [List.filter_cons, hb, ih.1]
      · simp [List.filter_cons, hb, ih.2.1]
      · have h3 := ih.2.2
        simp only [List.length_cons]
        omega
    · rw [if_neg hb]
      simp only [Bool.not_eq_true] at hb
      refine ⟨?_, ?_, ?_⟩
      · simp [List.filter_cons, hb, ih.1]
      · simp [List.filter_cons, hb, ih.2.1]
      · have h3 := ih.2.2
        simp only [List.length_cons]
        omega

/-- The verifier's two output lists always account for every input. -/
theorem verifyAll_length (oracle : List Char → Except (List Char) (List SigInfo))
    (startTime endTime : Int) (ps : List Participant) :
    (verifyAllParticipants oracle startTime endTime ps).1.length
      + (verifyAllParticipants oracle startTime endTime ps).2.length = ps.length := by
  induction ps with
  | nil => rfl
  | cons p rest ih =>
    simp only [verifyAllParticipants]
    by_cases hb : (checkWalletActivity p.wallet (oracle p.wallet) startTime endTime).isBuilder
    · rw [if_pos hb]
      simp only [List.length_cons]
      omega
    · rw [if_neg hb]
      simp only [List.length_cons]
      omega

/-- CLAIM C8: an address failing the format check short-circuits to a
non-builder result with the explicit tag, independently of the ledger (so
the ledger is never consulted); a ledger failure is caught and tagged with
its message; and a participant whose lookup fails lands in the nonBuilders
output while the batch still accounts for every participant. -/
theorem classifier_failure_semantics :
    (∀ (walletAddress : List Char) (ledger : Except (List Char) (List SigInfo))
        (startTime endTime : Int),
      isValidSolanaAddress walletAddress = false →
      checkWalletActivity walletAddress ledger startTime endTime =
        ⟨false, 0, none, some (String.toList "Invalid address")⟩) ∧
    (∀ (walletAddress msg : List Char) (startTime endTime : Int),
      isValidSolanaAddress walletAddress = true →
      checkWalletActivity walletAddress (.error msg) startTime endTime =
        ⟨false, 0, none, some msg⟩) ∧
    (∀ (oracle : List Char → Except (List Char) (List SigInfo))
        (startTime endTime : Int) (ps : List Participant) (p : Participant) (msg : List Char),
      p ∈ ps → oracle p.wallet = .error msg → isValidSolanaAddress p.wallet = true →
      (⟨p, some msg⟩ : NonBuilderRow) ∈ (verifyAllParticipants oracle startTime endTime ps).2 ∧
      (verifyAllParticipants oracle startTime endTime ps).1.length
        + (verifyAllParticipants oracle startTime endTime ps).2.length = ps.length) := by
  refine ⟨?_, ?_, ?_⟩
  · intro walletAddress ledger startTime endTime h
    unfold checkWalletActivity
    rw [if_pos (by simp [h])]
  · intro walletAddress msg startTime endTime h
    unfold checkWalletActivity
    rw [if_neg (by simp [h])]
  · intro oracle startTime endTime ps p msg hp ho hv
    refine ⟨?_, verifyAll_length oracle startTime endTime ps⟩
    revert hp
    induction ps with
    | nil => intro hp; cases hp
    | cons q rest ih =>
      intro hp
      rcases List.mem_cons.mp hp with rfl | hp2
      · simp only [verifyAllParticipants]
        rw [ho]
        have hres : checkWalletActivity p.wallet
            (Except.error msg : Except (List Char) (List SigInfo)) startTime endTime =
            ⟨false, 0, none, some msg⟩ := by
          unfold checkWalletActivity
          rw [if_neg (by simp [hv])]
        rw [hres]
        rw [if_neg (by simp)]
        exact List.mem_cons_self _ _
      · simp only [verifyAllParticipants]
        by_cases hb : (checkWalletActivity q.wallet (oracle q.wallet) startTime endTime).isBuilder
        · rw [if_pos hb]
          exact ih hp2
        · rw [if_neg hb]
          exact List.mem_cons_of_mem _ (ih hp2)

/-- Witness for the C8 theorem: a malformed address short-circuits, and a
participant whose ledger query fails lands in the nonBuilders list with the
failure message. -/
theorem classifier_failure_semantics_witness :
    checkWalletActivity (String.toList "bad") (.ok []) 0 0 =
        ⟨false, 0, none, some (String.toList "Invalid address")⟩ ∧
    (⟨⟨String.toList "n", String.toList "11111111111111111111111111111111", [],
          String.toList "L"⟩, some (String.toList "boom")⟩ : NonBuilderRow) ∈
      (verifyAllParticipants (fun _ => .error (String.toList "boom")) 0 0
        [⟨String.toList "n", String.toList "11111111111111111111111111111111", [],
          String.toList "L"⟩]).2 :=
  ⟨classifier_failure_semantics.1 (String.toList "bad") (.ok []) 0 0 (by decide),
   (classifier_failure_semantics.2.2 (fun _ => .error (String.toList "boom")) 0 0
      [⟨String.toList "n", String.toList "11111111111111111111111111111111", [],
        String.toList "L"⟩]
      ⟨String.toList "n", String.toList "11111111111111111111111111111111", [],
        String.toList "L"⟩
      (String.toList "boom") (List.mem_cons_self _ _) rfl (by decide)).1⟩

/-- CLAIM C7: for a valid wallet with a non-empty fetched signature list
(and a window starting at or after time 1, as any real date does), the
classifier filters to the entries whose block time lies in the closed
window [start, end], reports isBuilder exactly when that count is positive,
returns the count, and returns as firstTx the signature of the last
in-window element of the newest-first list — the oldest in-window entry. -/
theorem checkWalletActivity_window (walletAddress : List Char)
    (signatures : List SigInfo) (startTime endTime : Int)
    (hv : isValidSolanaAddress walletAddress = true)
    (hne : signatures ≠ [])
    (hs : 1 ≤ startTime) :
    checkWalletActivity walletAddress (.ok signatures) startTime endTime =
      ⟨decide (0 < (signatures.filter (fun s => (s.blockTime.map
            (fun t => decide (startTime ≤ t ∧ t ≤ endTime))).getD false)).length),
        (signatures.filter (fun s => (s.blockTime.map
            (fun t => decide (startTime ≤ t ∧ t ≤ endTime))).getD false)).length,
        ((signatures.filter (fun s => (s.blockTime.map
            (fun t => decide (startTime ≤ t ∧ t ≤ endTime))).getD false)).getLast?).map
          (fun s => s.signature),
        none⟩ := by
  have hfilter : signatures.filter (inWindowJs startTime endTime)
      = signatures.filter (fun s => (s.blockTime.map
          (fun t => decide (startTime ≤ t ∧ t ≤ endTime))).getD false) := by
    apply List.filter_congr
    intro s _
    unfold inWindowJs
    cases hbt : s.blockTime with
    | none => rfl
    | some t =>
      show (if t = 0 then false else decide (startTime ≤ t) && decide (t ≤ endTime))
        = (Option.map (fun u => decide (startTime ≤ u ∧ u ≤ endTime)) (some t)).getD false
      by_cases h0 : t = 0
      · subst h0
        rw [if_pos rfl]
        symm
        simp only [Option.map_some', Option.getD_some]
        rw [decide_eq_false]
        intro hcontra
        have := hcontra.1
        omega
      · rw [if_neg h0]
        by_cases h1 : startTime ≤ t
        · by_cases h2 : t ≤ endTime
          · simp [h1, h2]
          · simp [h1, h2]
        · simp [h1]
  unfold checkWalletActivity
  rw [if_neg (by simp [hv])]
  show (if signatures = [] then (⟨false, 0, none, none⟩ : ActivityResult)
    else ⟨decide (0 < (signatures.filter (inWindowJs startTime endTime)).length),
      (signatures.filter (inWindowJs startTime endTime)).length,
      ((signatures.filter (inWindowJs startTime endTime)).getLast?).map (fun s => s.signature),
      none⟩) = _
  rw [if_neg hne, hfilter]

/-- Witness for the C7 theorem: a wallet whose only transaction falls
strictly inside the window is a builder with transactionCount 1 and that
transaction as firstTx. -/
theorem checkWalletActivity_window_witness :
    checkWalletActivity (List.replicate 32 '1')
        (.ok [⟨String.toList "tx1", some 500⟩]) 100 900 =
      ⟨true, 1, some (String.toList "tx1"), none⟩ := by
  have h := checkWalletActivity_window (List.replicate 32 '1')
    [⟨String.toList "tx1", some 500⟩] 100 900 (by decide) (by decide) (by decide)
  exact h.trans (by decide)
